import Mathlib

/-!
# Host-side bulk primitives of Hornet (`include/Core/StandardAPI.i.hpp`)

A shallow embedding of `hornet::host::memsetZero`, `memsetOne`, `reduce` and
`excl_prefixsum`, followed by the properties established about them.

Modelling conventions.

* A C++ array reached through a pointer is a `List`; every element access is
  bounds-checked and an access outside the array is a `Fault` naming the
  array and the index.
* The element type `T` of the templates is a type with `+` and `0`; the
  general theorems ask for a commutative monoid, so they cover the wrapping
  machine integers as well as the mathematical ones.  Loop indices are
  natural numbers (an `int` index is assumed not to overflow).
* A variable declared without initialiser (`T result;`, `T th_result[...]`)
  holds an indeterminate value, supplied by an `Uninit` record.
* Outside a parallel region `omp_get_num_threads()` is `1` and
  `omp_get_thread_num()` is `0` (OpenMP API, sequential part of a program);
  this is where lines 183, 197 and 198 call them.
* An OpenMP parallel region is run worker after worker in thread order.  The
  workers of one `schedule(static)` loop touch disjoint index ranges and a
  worker only reads back what it wrote itself, so the order is immaterial.
* `firstprivate(x)` gives every worker its own copy of `x`, initialised from
  the value `x` has on entry; the copy is dropped at the end of the region.
* `MAX_THREADS` is not defined in this file of the repository and is a
  parameter.
* Line 198 of `excl_prefixsum` calls `std::partial_sum` with two iterators.
  The standard library declares no such overload, so as written the template
  cannot be instantiated.  The line is kept in the model and the way it is
  read is a parameter (`Line198`): as written, left out, or as the running
  sum over `th_result` it stands for.  Nothing is proved about
  `excl_prefixsum` that silently picks one of them: each statement names the
  reading or holds for all three.
-/

namespace hornet

/-- What stops a call: an access outside the bounds of one of the three
arrays, or the call of line 198 for which no overload exists. -/
inductive Fault where
  | input (i : Nat)
  | output (i : Nat)
  | th_result (i : Nat)
  | no_overload
  deriving DecidableEq, Repr

/-- The readings of line 198,
`std::partial_sum(input, input + omp_get_num_threads() + 1);`.

* `no_overload`: the line as written.  There is no two-iterator
  `std::partial_sum`; the function cannot be instantiated and no call gets
  past this line.
* `no_effect`: the line left out, the least change under which the function
  builds.
* `in_place`: the call the surrounding code is written for,
  `std::partial_sum(th_result, th_result + omp_get_num_threads() + 1, th_result)`,
  the running sum of the table in place. -/
inductive Line198 where
  | no_overload
  | no_effect
  | in_place
  deriving DecidableEq, Repr

/-- Indeterminate contents of the variables declared without initialiser:
`result w` is what `T result;` holds in worker `w`, `th_result k` what slot
`k` of `T th_result[MAX_THREADS]` holds. -/
structure Uninit (T : Type) where
  result : Nat → T
  th_result : Nat → T

/-- The team executing a parallel region: its size and the way it splits a
`schedule(static)` loop of `n` iterations into one contiguous chunk per
thread, listed in thread order (OpenMP leaves the chunk sizes unspecified). -/
structure OmpTeam where
  num_threads : Nat
  schedule_static : Nat → List Nat

/-- The split tiles a loop of `n` iterations: one chunk per thread, and the
chunk sizes add up to `n`. -/
def OmpTeam.Conforming (omp : OmpTeam) (n : Nat) : Prop :=
  (omp.schedule_static n).length = omp.num_threads ∧ (omp.schedule_static n).sum = n

instance (omp : OmpTeam) (n : Nat) : Decidable (omp.Conforming n) := by
  unfold OmpTeam.Conforming
  exact inferInstance

/-- The even split used by the GNU and LLVM OpenMP runtimes: with
`q = n / P` and `r = n % P` the first `r` threads receive `q + 1` iterations
and the others `q`. -/
def static_chunks (n P : Nat) : List Nat :=
  List.replicate (n % P) (n / P + 1) ++ List.replicate (P - n % P) (n / P)

/-- A team of `P` threads with the even split. -/
def team (P : Nat) : OmpTeam :=
  ⟨P, fun n => static_chunks n P⟩

/-- Value of `omp_get_num_threads()` in the sequential part of a program
(lines 183 and 198, after the parallel region has ended). -/
def omp_get_num_threads_serial : Nat := 1

/-- Value of `omp_get_thread_num()` in the sequential part of a program
(line 197, between the two parallel regions). -/
def omp_get_thread_num_serial : Nat := 0

/-- Read `a[i]`. -/
def load {T : Type} (f : Nat → Fault) (a : List T) (i : Nat) : Except Fault T :=
  match a[i]? with
  | some x => .ok x
  | none => .error (f i)

/-- Write `a[i] = v`. -/
def store {T : Type} (f : Nat → Fault) (a : List T) (i : Nat) (v : T) :
    Except Fault (List T) :=
  if i < a.length then .ok (a.set i v) else .error (f i)

namespace host

/-! ### `memsetZero`, `memsetOne` (lines 162-170) -/

/-- The C library routine `memset(dest, ch, count)` on a block of bytes: the
first `count` bytes become `(unsigned char) ch`; the block must hold `count`
bytes. -/
def memset (mem : List Nat) (ch : Nat) (count : Nat) : Option (List Nat) :=
  if count ≤ mem.length then
    some (List.replicate count (ch % 256) ++ mem.drop count)
  else none

/-- Width of `size_t`. -/
def SIZE_WIDTH : Nat := 64

/-- `std::memset(pointer, 0x0, num_items * sizeof(T))`. -/
def memsetZero (sizeof_T : Nat) (pointer : List Nat) (num_items : Nat) : Option (List Nat) :=
  memset pointer 0x0 ((num_items * sizeof_T) % 2 ^ SIZE_WIDTH)

/-- `std::memset(pointer, 0xFF, num_items * sizeof(T))`. -/
def memsetOne (sizeof_T : Nat) (pointer : List Nat) (num_items : Nat) : Option (List Nat) :=
  memset pointer 0xFF ((num_items * sizeof_T) % 2 ^ SIZE_WIDTH)

/-- The bytes of element `i` of a buffer whose elements are `sizeof_T` bytes
wide. -/
def element (sizeof_T : Nat) (mem : List Nat) (i : Nat) : List Nat :=
  (mem.drop (i * sizeof_T)).take sizeof_T

/-- The unsigned integer a sequence of bytes represents (least significant
byte first). -/
def unsigned_value : List Nat → Nat
  | [] => 0
  | b :: bs => b + 256 * unsigned_value bs

/-! ### The loops -/

/-- The loop `for (i = start; i < start + count; i++) result += input[i];`
that one worker runs on its chunk (lines 179-180 and 193-194). -/
def sum_loop {T : Type} [Add T] (input : List T) :
    Nat → Nat → T → Except Fault T
  | 0, _, result => .ok result
  | count + 1, i, result => do
      let x ← load Fault.input input i
      sum_loop input count (i + 1) (result + x)

/-- `std::accumulate(a + i, a + i + count, init)`: `init = init + *first`
for every element of the range. -/
def accumulate {T : Type} [Add T] (a : List T) :
    Nat → Nat → T → Except Fault T
  | 0, _, init => .ok init
  | count + 1, i, init => do
      let x ← load Fault.input a i
      accumulate a count (i + 1) (init + x)

/-- The loop of lines 206-209 on one chunk:
`output[i] = flag ? carry : input[i - 1] + output[i - 1] + carry; flag = false;`
(`carry` is the source's local variable `partial`). -/
def scan_loop {T : Type} [Add T] (carry : T) (input : List T) :
    Nat → Nat → Bool → List T → Except Fault (List T)
  | 0, _, _, output => .ok output
  | count + 1, i, flag, output => do
      let v ← (if flag then (.ok carry : Except Fault T) else do
        let a ← load Fault.input input (i - 1)
        let b ← load Fault.output output (i - 1)
        pure (a + b + carry))
      let output ← store Fault.output output i v
      scan_loop carry input count (i + 1) false output

/-! ### `reduce` (lines 172-184) -/

/-- Worker `w` of the parallel region of `reduce` (lines 177-181);
`th_result` is shared. -/
def reduce_worker {T : Type} [Add T] (u : Uninit T) (input : List T)
    (w start count : Nat) (th_result : List T) : Except Fault (List T) := do
  let result ← sum_loop input count start (u.result w)
  store Fault.th_result th_result w result

/-- The parallel region of `reduce`: the workers, from worker `w` on. -/
def reduce_region {T : Type} [Add T] (u : Uninit T) (input : List T) :
    List Nat → Nat → Nat → List T → Except Fault (List T)
  | [], _, _, th_result => .ok th_result
  | count :: chunks, w, start, th_result => do
      let th_result ← reduce_worker u input w start count th_result
      reduce_region u input chunks (w + 1) (start + count) th_result

/-- The function `host::reduce(input, num_items)`. -/
def reduce {T : Type} [Add T] [Zero T] (MAX_THREADS : Nat) (omp : OmpTeam)
    (u : Uninit T) (input : List T) (num_items : Nat) : Except Fault T := do
  let th_result := (List.range MAX_THREADS).map u.th_result
  let _ ← reduce_region u input (omp.schedule_static num_items) 0 0 th_result
  accumulate input omp_get_num_threads_serial 0 (0 : T)

/-! ### `excl_prefixsum` (lines 186-211) -/

/-- Worker `w` of the first parallel region (lines 191-195); `th_result` is
the worker's own `firstprivate` copy. -/
def totals_worker {T : Type} [Add T] (u : Uninit T) (input : List T)
    (w start count : Nat) (th_result : List T) : Except Fault (List T) := do
  let result ← sum_loop input count start (u.result w)
  store Fault.th_result th_result (w + 1) result

/-- The first parallel region: every worker starts from a copy of the
`th_result` of the enclosing function, and the copies are dropped. -/
def totals_region {T : Type} [Add T] (u : Uninit T) (input : List T)
    (th_result : List T) : List Nat → Nat → Nat → Except Fault Unit
  | [], _, _ => .ok ()
  | count :: chunks, w, start => do
      let _ ← totals_worker u input w start count th_result
      totals_region u input th_result chunks (w + 1) (start + count)

/-- The loop of `std::partial_sum(a, a + n, a)` from the second element on:
`sum = sum + *first; *++d_first = sum;`. -/
def running_sum_loop {T : Type} [Add T] :
    Nat → Nat → T → List T → Except Fault (List T)
  | 0, _, _, a => .ok a
  | count + 1, i, sum, a => do
      let x ← load Fault.th_result a i
      let a ← store Fault.th_result a i (sum + x)
      running_sum_loop count (i + 1) (sum + x) a

/-- The library routine `std::partial_sum(a, a + count, a)`: every element
of the range becomes the sum of the elements up to and including it. -/
def running_sum {T : Type} [Add T] (a : List T) : Nat → Except Fault (List T)
  | 0 => .ok a
  | count + 1 => do
      let sum ← load Fault.th_result a 0
      let a ← store Fault.th_result a 0 sum
      running_sum_loop count 1 sum a

/-- Line 198 under the reading `r`, acting on the table `th_result`. -/
def line_198 {T : Type} [Add T] (r : Line198) (th_result : List T) :
    Except Fault (List T) :=
  match r with
  | Line198.no_overload => .error Fault.no_overload
  | Line198.no_effect => .ok th_result
  | Line198.in_place => running_sum th_result (omp_get_num_threads_serial + 1)

/-- The table `th_result` as the second parallel region finds it (lines
188-198), line 198 read as `r`. -/
def carry_table {T : Type} [Add T] [Zero T] (MAX_THREADS : Nat) (omp : OmpTeam)
    (r : Line198) (u : Uninit T) (input : List T) (num_items : Nat) :
    Except Fault (List T) := do
  let th_result := (List.range MAX_THREADS).map u.th_result
  totals_region u input th_result (omp.schedule_static num_items) 0 0
  let th_result ← store Fault.th_result th_result omp_get_thread_num_serial (0 : T)
  line_198 r th_result

/-- The seed worker `w` reads at line 203,
`T partial = th_result[omp_get_thread_num()]`. -/
def carry_seed {T : Type} [Add T] [Zero T] (MAX_THREADS : Nat) (omp : OmpTeam)
    (r : Line198) (u : Uninit T) (input : List T) (num_items : Nat) (w : Nat) :
    Except Fault T := do
  let th_result ← carry_table MAX_THREADS omp r u input num_items
  load Fault.th_result th_result w

/-- Worker `w` of the second parallel region (lines 203-209). -/
def scan_worker {T : Type} [Add T] (input : List T) (th_result : List T)
    (w start count : Nat) (output : List T) : Except Fault (List T) := do
  let carry ← load Fault.th_result th_result w
  scan_loop carry input count start true output

/-- The second parallel region: the workers, from worker `w` on. -/
def scan_region {T : Type} [Add T] (input : List T) (th_result : List T) :
    List Nat → Nat → Nat → List T → Except Fault (List T)
  | [], _, _, output => .ok output
  | count :: chunks, w, start, output => do
      let output ← scan_worker input th_result w start count output
      scan_region input th_result chunks (w + 1) (start + count) output

/-- The function `host::excl_prefixsum(input, num_items, output)`, line 198
read as `r`; the result is the content of the output buffer on return. -/
def excl_prefixsum {T : Type} [Add T] [Zero T] (MAX_THREADS : Nat) (omp : OmpTeam)
    (r : Line198) (u : Uninit T) (input : List T) (num_items : Nat) (output : List T) :
    Except Fault (List T) := do
  let th_result ← carry_table MAX_THREADS omp r u input num_items
  let output ← store Fault.output output 0 (0 : T)
  scan_region input th_result (omp.schedule_static num_items) 0 0 output

/-- The exclusive running sum in the words of the specification,
`output[i] = Σ_{j<i} input[j]` for all `i` in `[0, N)`, the rest of the
output buffer left as it was. -/
def spec_excl_prefixsum {T : Type} [Add T] [Zero T] (input : List T) (N : Nat)
    (output : List T) : List T :=
  (List.range N).map (fun i => (input.take i).sum) ++ output.drop N

/-- The start of the chunk of worker `w`. -/
def chunk_start (omp : OmpTeam) (n w : Nat) : Nat :=
  ((omp.schedule_static n).take w).sum

end host

/-- Indeterminate values that all happen to be `z`. -/
def Uninit.const {T : Type} (z : T) : Uninit T := ⟨fun _ => z, fun _ => z⟩

end hornet

namespace hornet.host

/-! ## Properties -/

/-! ### Array accesses and the accumulation loop -/

/-- Two successful results with different values are different. -/
theorem ok_ne_ok {α : Type} {a b : α} (h : a ≠ b) :
    (Except.ok a : Except Fault α) ≠ Except.ok b :=
  fun hc => h (Except.ok.inj hc)

/-- A read inside the array returns the element. -/
theorem load_of_getElem? {T : Type} (f : Nat → Fault) (a : List T) (i : Nat) (x : T)
    (h : a[i]? = some x) : load f a i = .ok x := by
  simp [load, h]

/-- A write inside the array updates the element. -/
theorem store_of_lt {T : Type} (f : Nat → Fault) (a : List T) (i : Nat) (v : T)
    (h : i < a.length) : store f a i v = .ok (a.set i v) := by
  simp [store, h]

/-- The accumulation loop of a worker runs through when its chunk lies
inside the input. -/
theorem sum_loop_ok {T : Type} [Add T] (input : List T) (count : Nat) :
    ∀ (i : Nat) (result : T), i + count ≤ input.length →
      ∃ r, sum_loop input count i result = .ok r := by
  induction count with
  | zero => intro i result _; exact ⟨result, rfl⟩
  | succ n ih =>
    intro i result h
    have hi : i < input.length := by omega
    obtain ⟨r, hr⟩ := ih (i + 1) (result + input[i]) (by omega)
    refine ⟨r, ?_⟩
    simp only [sum_loop, load_of_getElem? Fault.input input i input[i] (List.getElem?_eq_getElem hi)]
    exact hr

/-! ### The static split -/

/-- The even split is a tiling for every positive team size. -/
theorem team_conforming (P n : Nat) (hP : 1 ≤ P) : (team P).Conforming n := by
  have hr : n % P < P := Nat.mod_lt n (by omega)
  have hdm : P * (n / P) + n % P = n := Nat.div_add_mod n P
  have hle : n % P * (n / P) ≤ P * (n / P) := Nat.mul_le_mul_right _ (Nat.le_of_lt hr)
  constructor
  · simp only [team, static_chunks, List.length_append, List.length_replicate]
    omega
  · simp only [team, static_chunks, List.sum_append, List.sum_replicate, smul_eq_mul,
      Nat.mul_add, Nat.mul_one, Nat.sub_mul]
    omega

/-- A split of `n` iterations over a single thread is the one chunk `[n]`. -/
theorem schedule_single (omp : OmpTeam) (n : Nat) (hP : omp.num_threads = 1)
    (hc : omp.Conforming n) : omp.schedule_static n = [n] := by
  obtain ⟨hl, hs⟩ := hc
  rw [hP] at hl
  match h : omp.schedule_static n, hl, hs with
  | [c], _, hs =>
    simp only [List.sum_cons, List.sum_nil, add_zero] at hs
    rw [hs]

/-! ### `reduce` -/

/-- The parallel region of `reduce` runs through when the table has a slot
for every worker and the chunks lie inside the input. -/
theorem reduce_region_ok {T : Type} [Add T] (u : Uninit T) (input : List T)
    (chunks : List Nat) :
    ∀ (w start : Nat) (th_result : List T), w + chunks.length ≤ th_result.length →
      start + chunks.sum ≤ input.length →
      ∃ th, reduce_region u input chunks w start th_result = .ok th := by
  induction chunks with
  | nil => intro w start th _ _; exact ⟨th, rfl⟩
  | cons c cs ih =>
    intro w start th hw hs
    simp only [List.length_cons, List.sum_cons] at hw hs
    obtain ⟨r, hr⟩ := sum_loop_ok input c start (u.result w) (by omega)
    obtain ⟨th2, h2⟩ := ih (w + 1) (start + c) (th.set w r)
      (by simp only [List.length_set]; omega) (by omega)
    refine ⟨th2, ?_⟩
    simp only [reduce_region, reduce_worker, hr, bind, Except.bind,
      store_of_lt Fault.th_result th w r (by omega)]
    exact h2

/-- What `reduce` returns on a buffer that holds at least one element:
`T(0) + input[0]`, whatever the team and the indeterminate values. -/
theorem reduce_eq_first {T : Type} [AddCommMonoid T] (MAX_THREADS : Nat) (omp : OmpTeam)
    (u : Uninit T) (input : List T) (N : Nat) (x : T) (hx : input[0]? = some x)
    (hN : N ≤ input.length) (hc : omp.Conforming N) (hP : omp.num_threads ≤ MAX_THREADS) :
    reduce MAX_THREADS omp u input N = .ok x := by
  obtain ⟨hl, hs⟩ := hc
  obtain ⟨th, hth⟩ := reduce_region_ok u input (omp.schedule_static N) 0 0
    ((List.range MAX_THREADS).map u.th_result) (by simp; omega) (by omega)
  simp only [reduce, hth, bind, Except.bind, omp_get_num_threads_serial, accumulate,
    load_of_getElem? Fault.input input 0 x hx, zero_add]

/-! ### The partial-result table of `excl_prefixsum` -/

/-- The first parallel region of `excl_prefixsum` runs through when the
table has a slot beyond the last worker. -/
theorem totals_region_ok {T : Type} [Add T] (u : Uninit T) (input th_result : List T)
    (chunks : List Nat) :
    ∀ (w start : Nat), w + chunks.length < th_result.length →
      start + chunks.sum ≤ input.length →
      totals_region u input th_result chunks w start = .ok () := by
  induction chunks with
  | nil => intro w start _ _; rfl
  | cons c cs ih =>
    intro w start hw hs
    simp only [List.length_cons, List.sum_cons] at hw hs
    obtain ⟨r, hr⟩ := sum_loop_ok input c start (u.result w) (by omega)
    simp only [totals_region, totals_worker, hr, bind, Except.bind,
      store_of_lt Fault.th_result th_result (w + 1) r (by omega)]
    exact ih (w + 1) (start + c) (by omega) (by omega)

/-- With a team smaller than `MAX_THREADS` and line 198 left out, the table
the second region finds is the uninitialised one with slot 0 cleared: the
totals of the first region are not in it. -/
theorem carry_table_eq {T : Type} [Add T] [Zero T] (MAX_THREADS : Nat) (omp : OmpTeam)
    (u : Uninit T) (input : List T) (N : Nat)
    (hP : omp.num_threads < MAX_THREADS) (hc : omp.Conforming N) (hin : N ≤ input.length) :
    carry_table MAX_THREADS omp Line198.no_effect u input N
      = .ok (((List.range MAX_THREADS).map u.th_result).set 0 0) := by
  obtain ⟨hl, hs⟩ := hc
  have ht := totals_region_ok u input ((List.range MAX_THREADS).map u.th_result)
    (omp.schedule_static N) 0 0 (by simp; omega) (by omega)
  simp only [carry_table, ht, bind, Except.bind, omp_get_thread_num_serial, line_198,
    store_of_lt Fault.th_result ((List.range MAX_THREADS).map u.th_result) 0 (0 : T)
      (by simp; omega)]

/-- With line 198 left out, the seed of every worker but the first is the
uninitialised content of its slot. -/
theorem carry_seed_eq {T : Type} [Add T] [Zero T] (MAX_THREADS : Nat) (omp : OmpTeam)
    (u : Uninit T) (input : List T) (N w : Nat)
    (hP : omp.num_threads < MAX_THREADS) (hc : omp.Conforming N) (hin : N ≤ input.length)
    (hw1 : 1 ≤ w) (hw : w < omp.num_threads) :
    carry_seed MAX_THREADS omp Line198.no_effect u input N w = .ok (u.th_result w) := by
  have hget : (((List.range MAX_THREADS).map u.th_result).set 0 (0 : T))[w]?
      = some (u.th_result w) := by
    have h0 : ¬ 0 = w := by omega
    rw [List.getElem?_set, if_neg h0, List.getElem?_map,
      List.getElem?_range (show w < MAX_THREADS by omega)]
    rfl
  simp only [carry_seed, carry_table_eq MAX_THREADS omp u input N hP hc hin, bind, Except.bind]
  exact load_of_getElem? Fault.th_result _ w _ hget

/-- When the workers fill the table exactly, the last one writes one slot
past its end. -/
theorem totals_region_last_slot {T : Type} [Add T] (u : Uninit T) (input th_result : List T)
    (chunks : List Nat) :
    ∀ (w start : Nat), chunks ≠ [] → w + chunks.length = th_result.length →
      start + chunks.sum ≤ input.length →
      totals_region u input th_result chunks w start
        = .error (Fault.th_result th_result.length) := by
  induction chunks with
  | nil => intro w start h _ _; exact absurd rfl h
  | cons c cs ih =>
    intro w start _ hw hs
    simp only [List.length_cons, List.sum_cons] at hw hs
    obtain ⟨r, hr⟩ := sum_loop_ok input c start (u.result w) (by omega)
    cases cs with
    | nil =>
      simp only [List.length_nil] at hw
      have hlt : ¬ w + 1 < th_result.length := by omega
      have hw1 : w + 1 = th_result.length := by omega
      simp only [totals_region, totals_worker, hr, bind, Except.bind, store, hlt, if_false]
      rw [hw1]
    | cons c2 cs2 =>
      simp only [List.length_cons] at hw
      simp only [totals_region, totals_worker, hr, bind, Except.bind,
        store_of_lt Fault.th_result th_result (w + 1) r (by omega)]
      exact ih (w + 1) (start + c) (by simp) (by simp only [List.length_cons]; omega)
        (by omega)

/-- With as many workers as `MAX_THREADS`, `excl_prefixsum` accesses
`th_result[MAX_THREADS]` at line 195, whatever the input and however line 198
is read. -/
theorem excl_prefixsum_full_team {T : Type} [Add T] [Zero T] (MAX_THREADS : Nat)
    (omp : OmpTeam) (r : Line198) (u : Uninit T) (input : List T) (N : Nat)
    (output : List T)
    (hP : omp.num_threads = MAX_THREADS) (h1 : 1 ≤ MAX_THREADS) (hc : omp.Conforming N)
    (hin : N ≤ input.length) :
    excl_prefixsum MAX_THREADS omp r u input N output
      = .error (Fault.th_result MAX_THREADS) := by
  obtain ⟨hl, hs⟩ := hc
  have hne : omp.schedule_static N ≠ [] := by
    intro h
    rw [h] at hl
    simp only [List.length_nil] at hl
    omega
  have h := totals_region_last_slot u input ((List.range MAX_THREADS).map u.th_result)
    (omp.schedule_static N) 0 0 hne (by simp; omega) (by omega)
  simp only [List.length_map, List.length_range] at h
  simp only [excl_prefixsum, carry_table, h, bind, Except.bind]

/-! ### The scan loop -/

/-- The loop of one worker whose seed is `0`, past its first iteration:
if the output holds the running sums below `i`, then after `count` further
iterations it holds them below `i + count`, and nothing else has changed. -/
theorem scan_loop_zero_seed {T : Type} [AddCommMonoid T] (input : List T) (count : Nat) :
    ∀ (i : Nat) (out : List T), 1 ≤ i → i + count ≤ input.length →
      i + count ≤ out.length →
      (∀ j, j < i → out[j]? = some (input.take j).sum) →
      ∃ res, scan_loop 0 input count i false out = .ok res ∧
        res.length = out.length ∧
        (∀ j, j < i + count → res[j]? = some (input.take j).sum) ∧
        (∀ j, i + count ≤ j → res[j]? = out[j]?) := by
  induction count with
  | zero =>
    intro i out _ _ _ hpre
    exact ⟨out, rfl, rfl, fun j hj => hpre j (by omega), fun _ _ => rfl⟩
  | succ n ih =>
    intro i out hi hin hout hpre
    have hi1 : i - 1 < input.length := by omega
    have hsum : (input.take i).sum = (input.take (i - 1)).sum + input[i - 1] := by
      have h := List.sum_take_succ input (i - 1) hi1
      rwa [Nat.sub_add_cancel hi] at h
    have hstep : ∀ j, j < i + 1 →
        (out.set i (input[i - 1] + (input.take (i - 1)).sum + 0))[j]?
          = some (input.take j).sum := by
      intro j hj
      rw [List.getElem?_set]
      by_cases hij : i = j
      · subst hij
        have hlt : i < out.length := by omega
        simp only [if_true, hlt, hsum, add_zero, add_comm (input[i - 1])]
      · simp only [hij, if_false]
        exact hpre j (by omega)
    obtain ⟨res, hres, hlen, hlow, hhigh⟩ :=
      ih (i + 1) (out.set i (input[i - 1] + (input.take (i - 1)).sum + 0)) (by omega)
        (by omega) (by simp only [List.length_set]; omega) hstep
    refine ⟨res, ?_, ?_, ?_, ?_⟩
    · simp only [scan_loop, Bool.false_eq_true, if_false, bind, Except.bind, pure, Except.pure,
        load_of_getElem? Fault.input input (i - 1) input[i - 1] (List.getElem?_eq_getElem hi1),
        load_of_getElem? Fault.output out (i - 1) _ (hpre (i - 1) (by omega)),
        store_of_lt Fault.output out i _ (show i < out.length by omega)]
      exact hres
    · rw [hlen, List.length_set]
    · intro j hj
      exact hlow j (by omega)
    · intro j hj
      rw [hhigh j (by omega), List.getElem?_set]
      have hij : ¬ i = j := by omega
      simp only [hij, if_false]

/-- A second parallel region whose chunks are all empty writes nothing. -/
theorem scan_region_empty_chunks {T : Type} [Add T] (input th_result : List T)
    (chunks : List Nat) :
    ∀ (w start : Nat) (output : List T), chunks.sum = 0 →
      w + chunks.length ≤ th_result.length →
      scan_region input th_result chunks w start output = .ok output := by
  induction chunks with
  | nil => intro w start output _ _; rfl
  | cons c cs ih =>
    intro w start output hs hw
    simp only [List.length_cons, List.sum_cons] at hw hs
    obtain rfl : c = 0 := by omega
    have hlt : w < th_result.length := by omega
    simp only [scan_region, scan_worker, bind, Except.bind, scan_loop,
      load_of_getElem? Fault.th_result th_result w th_result[w] (List.getElem?_eq_getElem hlt)]
    exact ih (w + 1) (start + 0) output (by omega) (by omega)

/-- What `excl_prefixsum` does with `num_items = 0`, a team smaller than
`MAX_THREADS`, an output buffer of at least one element and line 198 left
out: it sets `output[0]` to `0` and leaves every other element as it was. -/
theorem excl_prefixsum_empty {T : Type} [Add T] [Zero T] (MAX_THREADS : Nat)
    (omp : OmpTeam) (u : Uninit T) (input output : List T)
    (hc : omp.Conforming 0) (hP : omp.num_threads < MAX_THREADS)
    (hout : 1 ≤ output.length) :
    excl_prefixsum MAX_THREADS omp Line198.no_effect u input 0 output
        = .ok (output.set 0 0) ∧
      ∀ j, 1 ≤ j → (output.set 0 (0 : T))[j]? = output[j]? := by
  have htab := carry_table_eq MAX_THREADS omp u input 0 hP hc (by omega)
  obtain ⟨hl, hs⟩ := hc
  have hsc := scan_region_empty_chunks input
    (((List.range MAX_THREADS).map u.th_result).set 0 (0 : T)) (omp.schedule_static 0) 0 0
    (output.set 0 0) hs (by simp; omega)
  constructor
  · simp only [excl_prefixsum, htab, bind, Except.bind,
      store_of_lt Fault.output output 0 (0 : T) (by omega), hsc]
  · intro j hj
    rw [List.getElem?_set]
    have h0 : ¬ 0 = j := by omega
    simp only [h0, if_false]

/-- The empty input with three workers and an output buffer `[9, 8]`. -/
theorem excl_prefixsum_empty_witness :
    excl_prefixsum 8 (team 3) Line198.no_effect (Uninit.const 5) ([] : List Int) 0 [9, 8]
        = .ok (([9, 8] : List Int).set 0 0) ∧
      ∀ j, 1 ≤ j → (([9, 8] : List Int).set 0 0)[j]? = ([9, 8] : List Int)[j]? :=
  excl_prefixsum_empty 8 (team 3) (Uninit.const 5) [] [9, 8] (by decide) (by decide)
    (by decide)

/-- The scan of a single worker when line 198 is left out and the table has
room for slot 1: the seed read by the worker is `0`, and the output is the
sequential exclusive scan of the first `N` inputs. -/
theorem single_worker_scan_no_effect {T : Type} [AddCommMonoid T] (MAX_THREADS : Nat)
    (omp : OmpTeam) (u : Uninit T) (input : List T) (N : Nat) (output : List T)
    (hP : omp.num_threads = 1) (hc : omp.Conforming N) (hMAX : 2 ≤ MAX_THREADS)
    (hN : 1 ≤ N) (hin : N ≤ input.length) (hout : N ≤ output.length) :
    carry_seed MAX_THREADS omp Line198.no_effect u input N 0 = .ok 0 ∧
      ∃ out, excl_prefixsum MAX_THREADS omp Line198.no_effect u input N output = .ok out ∧
        out = spec_excl_prefixsum input N output ∧
        out[0]? = some 0 ∧
        ∀ i, 1 ≤ i → i < N →
          ∃ a b, out[i - 1]? = some a ∧ input[i - 1]? = some b ∧ out[i]? = some (a + b) := by
  have htab := carry_table_eq MAX_THREADS omp u input N (by omega) hc hin
  have hseed : (((List.range MAX_THREADS).map u.th_result).set 0 (0 : T))[0]? = some 0 := by
    rw [List.getElem?_set]
    have hlt : 0 < ((List.range MAX_THREADS).map u.th_result).length := by simp; omega
    simp only [if_true, hlt]
  obtain ⟨n, rfl⟩ : ∃ n, N = n + 1 := ⟨N - 1, by omega⟩
  have hbase : ∀ j, j < 1 → ((output.set 0 (0 : T)).set 0 0)[j]? = some (input.take j).sum := by
    intro j hj
    obtain rfl : j = 0 := by omega
    rw [List.getElem?_set]
    have hlt : 0 < (output.set 0 (0 : T)).length := by simp only [List.length_set]; omega
    simp only [if_true, hlt, List.take_zero, List.sum_nil]
  obtain ⟨res, hres, hlen, hlow, hhigh⟩ :=
    scan_loop_zero_seed input n 1 ((output.set 0 (0 : T)).set 0 0) (by omega) (by omega)
      (by simp only [List.length_set]; omega) hbase
  refine ⟨?_, res, ?_, ?_, ?_, ?_⟩
  · simp only [carry_seed, htab, bind, Except.bind]
    exact load_of_getElem? Fault.th_result _ 0 0 hseed
  · simp only [excl_prefixsum, htab, bind, Except.bind, schedule_single omp (n + 1) hP hc,
      scan_region, scan_worker, load_of_getElem? Fault.th_result _ 0 0 hseed, scan_loop,
      if_true, store_of_lt Fault.output output 0 0 (show 0 < output.length by omega),
      store_of_lt Fault.output (output.set 0 0) 0 0
        (show 0 < (output.set 0 (0 : T)).length by simp only [List.length_set]; omega)]
    rw [show 0 + 1 = 1 from rfl, hres]
  · apply List.ext_getElem?
    intro j
    unfold spec_excl_prefixsum
    by_cases hj : j < n + 1
    · rw [hlow j (by omega), List.getElem?_append_left (by simp; omega), List.getElem?_map,
        List.getElem?_range hj]
      rfl
    · rw [hhigh j (by omega), List.getElem?_append_right (by simp; omega), List.getElem?_drop,
        List.getElem?_set, List.getElem?_set]
      have h0 : ¬ 0 = j := by omega
      simp only [h0, if_false, List.length_map, List.length_range]
      congr 1
      omega
  · rw [hlow 0 (by omega), List.take_zero, List.sum_nil]
  · intro i hi1 hi2
    have hi3 : i - 1 < input.length := by omega
    refine ⟨(input.take (i - 1)).sum, input[i - 1], hlow (i - 1) (by omega),
      List.getElem?_eq_getElem hi3, ?_⟩
    rw [hlow i (by omega)]
    have h := List.sum_take_succ input (i - 1) hi3
    rw [Nat.sub_add_cancel hi1] at h
    rw [h]

/-- The single worker on `[1, 2, 3, 4, 5]` with an output buffer of six
elements, line 198 left out. -/
theorem single_worker_scan_no_effect_witness :
    carry_seed 8 (team 1) Line198.no_effect (Uninit.const 7) ([1, 2, 3, 4, 5] : List Int) 5 0
        = .ok 0 ∧
      ∃ out, excl_prefixsum 8 (team 1) Line198.no_effect (Uninit.const 7)
          ([1, 2, 3, 4, 5] : List Int) 5
          [9, 9, 9, 9, 9, 9] = .ok out ∧
        out = spec_excl_prefixsum [1, 2, 3, 4, 5] 5 [9, 9, 9, 9, 9, 9] ∧
        out[0]? = some 0 ∧
        ∀ i, 1 ≤ i → i < 5 →
          ∃ a b, out[i - 1]? = some a ∧ ([1, 2, 3, 4, 5] : List Int)[i - 1]? = some b ∧
            out[i]? = some (a + b) :=
  single_worker_scan_no_effect 8 (team 1) (Uninit.const 7) [1, 2, 3, 4, 5] 5
    [9, 9, 9, 9, 9, 9] rfl (by decide) (by decide) (by decide) (by decide) (by decide)

/-! ### `memset` -/

/-- The effect of `memset` with a byte value `b` on the elements of a typed
buffer, when the byte count `num_items * sizeof_T` is taken in `size_t`. -/
theorem memset_elements (sizeof_T : Nat) (mem : List Nat) (len num_items b : Nat)
    (hmem : mem.length = len * sizeof_T) (hsize : mem.length < 2 ^ SIZE_WIDTH)
    (hn : num_items ≤ len) (hb : b < 256) :
    ∃ res, memset mem b ((num_items * sizeof_T) % 2 ^ SIZE_WIDTH) = some res ∧
      res.length = mem.length ∧
      (∀ i, i < num_items → element sizeof_T res i = List.replicate sizeof_T b) ∧
      (∀ i, num_items ≤ i → i < len → element sizeof_T res i = element sizeof_T mem i) := by
  have hle : num_items * sizeof_T ≤ mem.length := by
    rw [hmem]
    exact Nat.mul_le_mul_right sizeof_T hn
  have hmod : (num_items * sizeof_T) % 2 ^ SIZE_WIDTH = num_items * sizeof_T :=
    Nat.mod_eq_of_lt (by omega)
  refine ⟨List.replicate (num_items * sizeof_T) b ++ mem.drop (num_items * sizeof_T),
    ?_, ?_, ?_, ?_⟩
  · simp only [memset, hmod, hle, if_true, Nat.mod_eq_of_lt hb]
  · simp only [List.length_append, List.length_replicate, List.length_drop]
    omega
  · intro i hi
    have h1 : (i + 1) * sizeof_T ≤ num_items * sizeof_T := Nat.mul_le_mul_right sizeof_T hi
    rw [Nat.add_mul, Nat.one_mul] at h1
    unfold element
    rw [List.drop_append_of_le_length (by simp only [List.length_replicate]; omega),
      List.drop_replicate,
      List.take_append_of_le_length (by simp only [List.length_replicate]; omega),
      List.take_replicate]
    congr 1
    omega
  · intro i hi _
    have h1 : num_items * sizeof_T ≤ i * sizeof_T := Nat.mul_le_mul_right sizeof_T hi
    unfold element
    rw [List.drop_append_eq_append_drop, List.drop_replicate, List.drop_drop,
      List.length_replicate]
    have h2 : num_items * sizeof_T - i * sizeof_T = 0 := by omega
    have h3 : num_items * sizeof_T + (i * sizeof_T - num_items * sizeof_T) = i * sizeof_T := by
      omega
    rw [h2, h3]
    rfl

/-- An element whose bytes are all `0xFF` is the largest unsigned value of
its width. -/
theorem unsigned_value_all_ones (k : Nat) :
    unsigned_value (List.replicate k 0xFF) + 1 = 256 ^ k := by
  induction k with
  | zero => rfl
  | succ n ih =>
    simp only [List.replicate_succ, unsigned_value, pow_succ]
    omega

/-! ## The claims -/

/-- C1: with two workers on `[1, 2, 3, 4, 5]` the second chunk starts from
the uninitialised slot `th_result[1]` and adds it again at every further
index: with line 198 left out the output is `[0, 1, 3, g, 4 + g + g]`, and
however line 198 is read the output is never `[0, 1, 3, 6, 10]`. -/
theorem excl_prefixsum_two_workers (u : Uninit Int) (r : Line198) :
    excl_prefixsum 8 (team 2) Line198.no_effect u [1, 2, 3, 4, 5] 5 [9, 9, 9, 9, 9]
        = .ok [0, 1, 3, u.th_result 1, 4 + u.th_result 1 + u.th_result 1] ∧
      excl_prefixsum 8 (team 2) r u [1, 2, 3, 4, 5] 5 [9, 9, 9, 9, 9]
        ≠ .ok [0, 1, 3, 6, 10] := by
  have h : excl_prefixsum 8 (team 2) Line198.no_effect u [1, 2, 3, 4, 5] 5 [9, 9, 9, 9, 9]
      = .ok [0, 1, 3, u.th_result 1, 4 + u.th_result 1 + u.th_result 1] := rfl
  have hi : excl_prefixsum 8 (team 2) Line198.in_place u [1, 2, 3, 4, 5] 5 [9, 9, 9, 9, 9]
      = .ok [0, 1, 3, 0 + u.th_result 1, 4 + (0 + u.th_result 1) + (0 + u.th_result 1)] := rfl
  have hn : excl_prefixsum 8 (team 2) Line198.no_overload u [1, 2, 3, 4, 5] 5 [9, 9, 9, 9, 9]
      = .error Fault.no_overload := rfl
  refine ⟨h, ?_⟩
  cases r with
  | no_overload =>
    rw [hn]
    intro hc
    cases hc
  | no_effect =>
    rw [h]
    intro hc
    simp only [Except.ok.injEq, List.cons.injEq] at hc
    omega
  | in_place =>
    rw [hi]
    intro hc
    simp only [Except.ok.injEq, List.cons.injEq] at hc
    omega

/-- C2: on `[1, 2, 3, 4, 5]` with two workers `reduce` returns `1`, the first
element, and not the sum `15`. -/
theorem reduce_two_workers (u : Uninit Int) :
    reduce 8 (team 2) u [1, 2, 3, 4, 5] 5 = .ok 1 ∧
      ([1, 2, 3, 4, 5] : List Int).sum = 15 ∧
      reduce 8 (team 2) u [1, 2, 3, 4, 5] 5 ≠ .ok ([1, 2, 3, 4, 5] : List Int).sum := by
  have h : reduce 8 (team 2) u [1, 2, 3, 4, 5] 5 = .ok 1 := rfl
  refine ⟨h, rfl, ?_⟩
  rw [h]
  exact ok_ne_ok (by decide)

/-- C3: on `[1, 2]` with one worker the scan (line 198 left out) ends in
`output[1] = 1`, so `output[1] + input[1] = 3`, while `reduce` returns `1`;
however line 198 is read, no output of the scan has
`output[1] + input[1]` equal to what `reduce` returns. -/
theorem scan_total_vs_reduce (u : Uninit Int) (r : Line198) :
    excl_prefixsum 8 (team 1) Line198.no_effect u [1, 2] 2 [9, 9] = .ok [0, 1] ∧
      reduce 8 (team 1) u [1, 2] 2 = .ok 1 ∧
      ¬ ∃ out v, excl_prefixsum 8 (team 1) r u [1, 2] 2 [9, 9] = .ok out ∧
        reduce 8 (team 1) u [1, 2] 2 = .ok v ∧
        out[1]?.map (fun x => x + 2) = some v := by
  have h1 : excl_prefixsum 8 (team 1) Line198.no_effect u [1, 2] 2 [9, 9] = .ok [0, 1] := rfl
  have hi : excl_prefixsum 8 (team 1) Line198.in_place u [1, 2] 2 [9, 9] = .ok [0, 1] := rfl
  have hn : excl_prefixsum 8 (team 1) Line198.no_overload u [1, 2] 2 [9, 9]
      = .error Fault.no_overload := rfl
  have h2 : reduce 8 (team 1) u [1, 2] 2 = .ok 1 := rfl
  refine ⟨h1, h2, ?_⟩
  rintro ⟨out, v, ho, hr, hsum⟩
  rw [h2] at hr
  cases hr
  cases r with
  | no_overload =>
    rw [hn] at ho
    cases ho
  | no_effect =>
    rw [h1] at ho
    cases ho
    revert hsum
    decide
  | in_place =>
    rw [hi] at ho
    cases ho
    revert hsum
    decide

/-- C4: for an input of length at least 1 and two teams of at most
`MAX_THREADS` workers, `reduce` returns the same value with either team. -/
theorem reduce_partition_invariant {T : Type} [AddCommMonoid T] (MAX_THREADS : Nat)
    (omp1 omp2 : OmpTeam) (u1 u2 : Uninit T) (input : List T) (N : Nat)
    (hN : 1 ≤ N) (hlen : N ≤ input.length)
    (hc1 : omp1.Conforming N) (hc2 : omp2.Conforming N)
    (hP1 : omp1.num_threads ≤ MAX_THREADS) (hP2 : omp2.num_threads ≤ MAX_THREADS) :
    ∃ r, reduce MAX_THREADS omp1 u1 input N = .ok r ∧
      reduce MAX_THREADS omp2 u2 input N = .ok r := by
  have h0 : 0 < input.length := by omega
  exact ⟨input[0], reduce_eq_first MAX_THREADS omp1 u1 input N input[0]
      (List.getElem?_eq_getElem h0) hlen hc1 hP1,
    reduce_eq_first MAX_THREADS omp2 u2 input N input[0]
      (List.getElem?_eq_getElem h0) hlen hc2 hP2⟩

/-- C4, on a 5-element input: five workers against one. -/
theorem reduce_partition_invariant_witness :
    ∃ r, reduce 8 (team 5) (Uninit.const 3) ([1, 2, 3, 4, 5] : List Int) 5 = .ok r ∧
      reduce 8 (team 1) (Uninit.const 7) ([1, 2, 3, 4, 5] : List Int) 5 = .ok r :=
  reduce_partition_invariant 8 (team 5) (team 1) (Uninit.const 3) (Uninit.const 7)
    [1, 2, 3, 4, 5] 5 (by decide) (by decide) (by decide) (by decide) (by decide) (by decide)

/-- C5: with a single worker and `MAX_THREADS = 1` the worker writes
`th_result[1]` on the 1-entry table (line 195) before any output is produced,
however line 198 is read; and as written (no overload for line 198) no call
returns an output, here with `MAX_THREADS = 8`. -/
theorem single_worker_no_scan (u : Uninit Int) (r : Line198) :
    excl_prefixsum 1 (team 1) r u [1, 2, 3, 4, 5] 5 [9, 9, 9, 9, 9]
        = .error (Fault.th_result 1) ∧
      carry_seed 1 (team 1) r u [1, 2, 3, 4, 5] 5 0 = .error (Fault.th_result 1) ∧
      excl_prefixsum 8 (team 1) Line198.no_overload u [1, 2, 3, 4, 5] 5 [9, 9, 9, 9, 9]
        = .error Fault.no_overload ∧
      excl_prefixsum 1 (team 1) r u [1, 2, 3, 4, 5] 5 [9, 9, 9, 9, 9]
        ≠ .ok (spec_excl_prefixsum [1, 2, 3, 4, 5] 5 [9, 9, 9, 9, 9]) := by
  have h : excl_prefixsum 1 (team 1) r u [1, 2, 3, 4, 5] 5 [9, 9, 9, 9, 9]
      = .error (Fault.th_result 1) := rfl
  refine ⟨h, rfl, rfl, ?_⟩
  rw [h]
  intro hc
  cases hc

/-- C6: with `num_items = 0`, `reduce` still reads `input[0]`: on an empty
buffer that is an access out of bounds, on a larger buffer the element is
returned. -/
theorem reduce_empty_reads_input (u : Uninit Int) :
    reduce 8 (team 2) u [] 0 = .error (Fault.input 0) ∧
      reduce 8 (team 2) u [7] 0 = .ok 7 ∧
      reduce 8 (team 2) u [7] 0 ≠ .ok 0 := by
  have h : reduce 8 (team 2) u [7] 0 = .ok 7 := rfl
  refine ⟨rfl, h, ?_⟩
  rw [h]
  exact ok_ne_ok (by decide)

/-- C7: with `num_items = 0`, `excl_prefixsum` still executes
`output[0] = 0`: with line 198 left out an output buffer `[9]` comes back as
`[0]`, and on an empty output buffer the write is out of bounds; however
line 198 is read, the call does not return with the buffer unchanged. -/
theorem excl_prefixsum_empty_writes_output :
    excl_prefixsum 8 (team 1) Line198.no_effect (Uninit.const 5) ([] : List Int) 0 [9]
        = .ok [0] ∧
      excl_prefixsum 8 (team 1) Line198.no_effect (Uninit.const 5) ([] : List Int) 0 [9]
        ≠ .ok [9] ∧
      excl_prefixsum 8 (team 1) Line198.no_effect (Uninit.const 5) ([] : List Int) 0 []
        = .error (Fault.output 0) ∧
      (∀ r : Line198,
        excl_prefixsum 8 (team 1) r (Uninit.const 5) ([] : List Int) 0 [9] ≠ .ok [9] ∧
        excl_prefixsum 8 (team 1) r (Uninit.const 5) ([] : List Int) 0 [] ≠ .ok []) := by
  have h : excl_prefixsum 8 (team 1) Line198.no_effect (Uninit.const 5) ([] : List Int) 0 [9]
      = .ok [0] := rfl
  refine ⟨h, ?_, rfl, ?_⟩
  · rw [h]
    exact ok_ne_ok (by decide)
  · have hi : excl_prefixsum 8 (team 1) Line198.in_place (Uninit.const 5) ([] : List Int) 0 [9]
        = .ok [0] := rfl
    have hn : ∀ out : List Int,
        excl_prefixsum 8 (team 1) Line198.no_overload (Uninit.const 5) ([] : List Int) 0 out
          = .error Fault.no_overload := fun _ => rfl
    have he : excl_prefixsum 8 (team 1) Line198.no_effect (Uninit.const 5) ([] : List Int) 0 []
        = .error (Fault.output 0) := rfl
    have hie : excl_prefixsum 8 (team 1) Line198.in_place (Uninit.const 5) ([] : List Int) 0 []
        = .error (Fault.output 0) := rfl
    intro r
    cases r with
    | no_overload =>
      rw [hn, hn]
      exact ⟨fun hc => (by cases hc), fun hc => (by cases hc)⟩
    | no_effect =>
      rw [h, he]
      exact ⟨ok_ne_ok (by decide), fun hc => (by cases hc)⟩
    | in_place =>
      rw [hi, hie]
      exact ⟨ok_ne_ok (by decide), fun hc => (by cases hc)⟩

/-- C8: on a buffer of `len` elements of `sizeof_T` bytes each and for
`num_items ≤ len`, `memsetZero` makes every byte of the first `num_items`
elements `0x00`, `memsetOne` makes every byte of them `0xFF` (the element
then reads `256 ^ sizeof_T - 1` as an unsigned integer, not `1`), and both
leave the elements from `num_items` on as they were. -/
theorem memset_zero_one (sizeof_T : Nat) (pointer : List Nat) (len num_items : Nat)
    (hsz : 1 ≤ sizeof_T) (hmem : pointer.length = len * sizeof_T)
    (hsize : pointer.length < 2 ^ SIZE_WIDTH) (hn : num_items ≤ len) :
    (∃ z, memsetZero sizeof_T pointer num_items = some z ∧ z.length = pointer.length ∧
      (∀ i, i < num_items → element sizeof_T z i = List.replicate sizeof_T 0x00) ∧
      (∀ i, num_items ≤ i → i < len → element sizeof_T z i = element sizeof_T pointer i)) ∧
    (∃ o, memsetOne sizeof_T pointer num_items = some o ∧ o.length = pointer.length ∧
      (∀ i, i < num_items → element sizeof_T o i = List.replicate sizeof_T 0xFF) ∧
      (∀ i, i < num_items → unsigned_value (element sizeof_T o i) = 256 ^ sizeof_T - 1 ∧
        unsigned_value (element sizeof_T o i) ≠ 1) ∧
      (∀ i, num_items ≤ i → i < len → element sizeof_T o i = element sizeof_T pointer i)) := by
  refine ⟨memset_elements sizeof_T pointer len num_items 0x00 hmem hsize hn (by decide), ?_⟩
  obtain ⟨o, ho, hlen, hfill, hrest⟩ :=
    memset_elements sizeof_T pointer len num_items 0xFF hmem hsize hn (by decide)
  refine ⟨o, ho, hlen, hfill, ?_, hrest⟩
  intro i hi
  have hv := unsigned_value_all_ones sizeof_T
  have hp : 256 ^ 1 ≤ 256 ^ sizeof_T := Nat.pow_le_pow_right (by decide) hsz
  rw [hfill i hi]
  omega

/-- C8 on a buffer of three 4-byte elements, the first two of which are
filled. -/
theorem memset_zero_one_witness :
    (∃ z, memsetZero 4 [1, 2, 3, 4, 5, 6, 7, 8, 9, 10, 11, 12] 2 = some z ∧
      z.length = [1, 2, 3, 4, 5, 6, 7, 8, 9, 10, 11, 12].length ∧
      (∀ i, i < 2 → element 4 z i = List.replicate 4 0x00) ∧
      (∀ i, 2 ≤ i → i < 3 →
        element 4 z i = element 4 [1, 2, 3, 4, 5, 6, 7, 8, 9, 10, 11, 12] i)) ∧
    (∃ o, memsetOne 4 [1, 2, 3, 4, 5, 6, 7, 8, 9, 10, 11, 12] 2 = some o ∧
      o.length = [1, 2, 3, 4, 5, 6, 7, 8, 9, 10, 11, 12].length ∧
      (∀ i, i < 2 → element 4 o i = List.replicate 4 0xFF) ∧
      (∀ i, i < 2 → unsigned_value (element 4 o i) = 256 ^ 4 - 1 ∧
        unsigned_value (element 4 o i) ≠ 1) ∧
      (∀ i, 2 ≤ i → i < 3 →
        element 4 o i = element 4 [1, 2, 3, 4, 5, 6, 7, 8, 9, 10, 11, 12] i)) :=
  memset_zero_one 4 [1, 2, 3, 4, 5, 6, 7, 8, 9, 10, 11, 12] 3 2 (by decide) (by decide)
    (by decide) (by decide)

/-- C9: the seed worker 1 reads is the uninitialised content of
`th_result[1]` (line 198 left out), the same for two inputs whose first chunk
(indices below 3) sums to 6 and to 60; however line 198 is read, it is not
the total of the first chunk for both. -/
theorem carry_seed_is_uninitialised (u : Uninit Int) (r : Line198) :
    carry_seed 8 (team 2) Line198.no_effect u [1, 2, 3, 4, 5] 5 1 = .ok (u.th_result 1) ∧
      carry_seed 8 (team 2) Line198.no_effect u [10, 20, 30, 40, 50] 5 1
        = .ok (u.th_result 1) ∧
      chunk_start (team 2) 5 1 = 3 ∧
      ¬ (carry_seed 8 (team 2) r u [1, 2, 3, 4, 5] 5 1
            = .ok (([1, 2, 3, 4, 5] : List Int).take (chunk_start (team 2) 5 1)).sum ∧
          carry_seed 8 (team 2) r u [10, 20, 30, 40, 50] 5 1
            = .ok (([10, 20, 30, 40, 50] : List Int).take (chunk_start (team 2) 5 1)).sum) := by
  have h1 : carry_seed 8 (team 2) Line198.no_effect u [1, 2, 3, 4, 5] 5 1
      = .ok (u.th_result 1) := rfl
  have h2 : carry_seed 8 (team 2) Line198.no_effect u [10, 20, 30, 40, 50] 5 1
      = .ok (u.th_result 1) := rfl
  have i1 : carry_seed 8 (team 2) Line198.in_place u [1, 2, 3, 4, 5] 5 1
      = .ok (0 + u.th_result 1) := rfl
  have i2 : carry_seed 8 (team 2) Line198.in_place u [10, 20, 30, 40, 50] 5 1
      = .ok (0 + u.th_result 1) := rfl
  have n1 : carry_seed 8 (team 2) Line198.no_overload u [1, 2, 3, 4, 5] 5 1
      = .error Fault.no_overload := rfl
  have h3 : chunk_start (team 2) 5 1 = 3 := rfl
  refine ⟨h1, h2, h3, ?_⟩
  rw [h3]
  cases r with
  | no_overload =>
    rw [n1]
    rintro ⟨ha, _⟩
    cases ha
  | no_effect =>
    rw [h1, h2]
    rintro ⟨ha, hb⟩
    have ha2 : u.th_result 1 = 6 := Except.ok.inj ha
    have hb2 : u.th_result 1 = 60 := Except.ok.inj hb
    omega
  | in_place =>
    rw [i1, i2]
    rintro ⟨ha, hb⟩
    have ha2 : 0 + u.th_result 1 = 6 := Except.ok.inj ha
    have hb2 : 0 + u.th_result 1 = 60 := Except.ok.inj hb
    omega

/-- C10: with `P = MAX_THREADS = 4` the last worker writes slot 4 of the
4-entry table `th_result` (line 195), however line 198 is read. -/
theorem th_result_slot_out_of_bounds (u : Uninit Int) (r : Line198) :
    excl_prefixsum 4 (team 4) r u [1, 2, 3, 4, 5] 5 [9, 9, 9, 9, 9]
      = .error (Fault.th_result 4) :=
  rfl

end hornet.host
